import Mathlib

/-!
Shallow embedding of the script-segment lifecycle and text-to-speech
delivery pipeline of the CryptoFM repository (`voice-management.js`,
with the endpoint wrappers of `voice-server.js`).

The on-disk queue record (`queue.json`: `lastPosition` plus `segments`)
and the audio-file directories (`scripts/current`, `scripts/spoken`)
are modelled as one explicit state value `PipelineState`.  Timestamps
(`Date.now()`, ISO strings) are modelled as integers; audio file paths
as a directory tag plus the segment id embedded in the basename
(`segment-<id>.mp3`).  The byte contents of audio files are irrelevant
to every property studied here, so the file system is the set of paths
that exist; the TTS network call is an oracle `List Char → Bool`
telling which chunk requests succeed.
-/

namespace CryptoFM

/-- Segment status markers, exactly the strings used in
`voice-management.js` (`'pending' | 'ready' | 'spoken'`). -/
inductive Status where
  | pending
  | ready
  | spoken
deriving DecidableEq

/-- Directory part of an audio path: `scripts/current` or `scripts/spoken`. -/
inductive Dir where
  | current
  | spoken
deriving DecidableEq

/-- An audio file path `<dir>/segment-<base>.mp3`; `path.basename` keeps
`base`, `path.join(SPOKEN_DIR, basename)` rebuilds it under `spoken`. -/
structure AudioPath where
  dir : Dir
  base : Int
deriving DecidableEq

/-- One entry of `queue.segments` as created and mutated by
`voice-management.js`.  `spokenAt` is absent (`none`) until
`markSegmentAsSpoken` sets it. -/
structure Segment where
  id : Int
  text : List Char
  timestamp : Int
  status : Status
  audioFile : Option AudioPath
  spokenAt : Option Int
deriving DecidableEq

/-- The whole mutable state of the pipeline: the `queue.json` record
(`lastPosition`, `segments`) plus the set of audio files on disk. -/
structure PipelineState where
  lastPosition : Nat
  segments : List Segment
  files : List AudioPath
deriving DecidableEq

/-- The state right after module initialisation: the queue file is
created with `{ lastPosition: 0, segments: [] }` and no audio exists. -/
def initState : PipelineState := ⟨0, [], []⟩

/-- `fs.existsSync` on the modelled file set. -/
def fsExists (files : List AudioPath) (f : AudioPath) : Bool :=
  decide (f ∈ files)

/-- `fs.writeFileSync`: after the call the path exists (content ignored). -/
def fsWrite (files : List AudioPath) (f : AudioPath) : List AudioPath :=
  if f ∈ files then files else f :: files

/-- `fs.unlinkSync` (guarded by `existsSync` at every call site). -/
def fsUnlink (files : List AudioPath) (f : AudioPath) : List AudioPath :=
  files.erase f

/-- `fs.renameSync src dst`. -/
def fsRename (files : List AudioPath) (src dst : AudioPath) : List AudioPath :=
  fsWrite (files.erase src) dst

/-- Replace the first element satisfying `p` by `f` of it — the effect of
`array.find(...)` followed by mutation of the returned object. -/
def updateFirst (p : Segment → Bool) (f : Segment → Segment) :
    List Segment → List Segment
  | [] => []
  | x :: xs => if p x then f x :: xs else x :: updateFirst p f xs

/-- `addSegmentToQueue(segment, timestamp)`: pushes
`{ id: Date.now(), text, timestamp: timestamp || now, status: 'pending',
audioFile: null }` at the end of the queue.  `now` is the value of
`Date.now()` during the call.  No uniqueness check of any kind is made. -/
def addSegmentToQueue (s : PipelineState) (segment : List Char)
    (timestamp : Option Int) (now : Int) : PipelineState × Segment :=
  let seg : Segment :=
    { id := now
      text := segment
      timestamp := timestamp.getD now
      status := Status.pending
      audioFile := none
      spokenAt := none }
  ({ s with segments := s.segments ++ [seg] }, seg)

/-- `markSegmentAsSpoken(segmentId)`: find the segment, set
`status='spoken'` and `spokenAt=now`; if its audio file exists, rename
it into the spoken directory and update `audioFile`.  A missing id is
silently ignored. -/
def markSegmentAsSpoken (s : PipelineState) (segmentId : Int) (now : Int) :
    PipelineState :=
  match s.segments.find? (fun g => decide (g.id = segmentId)) with
  | none => s
  | some seg =>
    let seg₁ : Segment := { seg with status := Status.spoken, spokenAt := some now }
    match seg.audioFile with
    | some f =>
      if fsExists s.files f then
        let spokenFile : AudioPath := ⟨Dir.spoken, f.base⟩
        { s with
          segments := updateFirst (fun g => decide (g.id = segmentId))
            (fun _ => { seg₁ with audioFile := some spokenFile }) s.segments
          files := fsRename s.files f spokenFile }
      else
        { s with
          segments := updateFirst (fun g => decide (g.id = segmentId))
            (fun _ => seg₁) s.segments }
    | none =>
      { s with
        segments := updateFirst (fun g => decide (g.id = segmentId))
          (fun _ => seg₁) s.segments }

/-- `getNextSegmentToSpeak()`: first segment whose status is `'pending'`
or `'ready'`. -/
def getNextSegmentToSpeak (s : PipelineState) : Option Segment :=
  s.segments.find?
    (fun g => decide (g.status = Status.pending ∨ g.status = Status.ready))

/-! ### Text sanitisation

`generateAudio` and `processFullScript` both run the same three regex
replacements: `\[.*?\]` → `''`, `<phoneme[^>]*>([^<]*)<\/phoneme>` → `$1`,
`<[^>]+>` → `''` (the ingest path additionally `trim`s after the first).
They are modelled as one-pass scanners with the exact JS regex
semantics: `.` does not match a line terminator, lazy `.*?` stops at the
first `]`, a failed match restarts one character later. -/

/-- Index of the first `']'` in the list, provided no line terminator
(which JS `.` refuses to match) comes before it. -/
def findCloseBracket : List Char → Option Nat
  | [] => none
  | c :: cs =>
    if c = ']' then some 0
    else if c = '\n' ∨ c = '\r' then none
    else (findCloseBracket cs).map (· + 1)

/-- `text.replace(/\[.*?\]/g, '')`, as a scan loop: each step consumes
at least one character, so running it with `fuel = l.length` steps
available is exact (`fuel = 0` is only ever reached on `[]`). -/
def stripBracketsFuel : Nat → List Char → List Char
  | 0, _ => []
  | _ + 1, [] => []
  | fuel + 1, c :: cs =>
    if c = '[' then
      match findCloseBracket cs with
      | some k => stripBracketsFuel fuel (cs.drop (k + 1))
      | none => c :: stripBracketsFuel fuel cs
    else c :: stripBracketsFuel fuel cs

/-- `text.replace(/\[.*?\]/g, '')`. -/
def stripBrackets (l : List Char) : List Char :=
  stripBracketsFuel l.length l

/-- Match `<phoneme[^>]*>([^<]*)<\/phoneme>` at the head of the list;
returns the captured group and the total number of matched characters
(which is `8 + |attrs| + 1 + |inner| + 10`). -/
def matchPhoneme (l : List Char) : Option (List Char × Nat) :=
  if l.take 8 = "<phoneme".toList then
    let afterTag := l.drop 8
    let attrs := afterTag.takeWhile (fun c => decide (c ≠ '>'))
    match afterTag.drop attrs.length with
    | '>' :: rest2 =>
      let inner := rest2.takeWhile (fun c => decide (c ≠ '<'))
      if (rest2.drop inner.length).take 10 = "</phoneme>".toList then
        some (inner, 8 + attrs.length + 1 + inner.length + 10)
      else none
    | _ => none
  else none

/-- `text.replace(/<phoneme[^>]*>([^<]*)<\/phoneme>/g, '$1')` as a scan
loop on fuel.  When a match of `n ≥ 19` characters starts at `c :: cs`,
the remainder is `(c :: cs).drop n = cs.drop (n - 1)`; every step
consumes at least one character, so `fuel = l.length` is exact. -/
def stripPhonemeFuel : Nat → List Char → List Char
  | 0, _ => []
  | _ + 1, [] => []
  | fuel + 1, c :: cs =>
    match matchPhoneme (c :: cs) with
    | some (inner, n) => inner ++ stripPhonemeFuel fuel (cs.drop (n - 1))
    | none => c :: stripPhonemeFuel fuel cs

/-- `text.replace(/<phoneme[^>]*>([^<]*)<\/phoneme>/g, '$1')`. -/
def stripPhoneme (l : List Char) : List Char :=
  stripPhonemeFuel l.length l

/-- Match `<[^>]+>` at the head of the list; returns the number of
matched characters (`1 + |body| + 1` with `|body| ≥ 1`). -/
def matchTag : List Char → Option Nat
  | '<' :: rest =>
    let body := rest.takeWhile (fun c => decide (c ≠ '>'))
    if body.length = 0 then none
    else
      match rest.drop body.length with
      | '>' :: _ => some (1 + body.length + 1)
      | _ => none
  | _ => none

/-- `text.replace(/<[^>]+>/g, '')` as a scan loop on fuel; every step
consumes at least one character, so `fuel = l.length` is exact. -/
def stripTagsFuel : Nat → List Char → List Char
  | 0, _ => []
  | _ + 1, [] => []
  | fuel + 1, c :: cs =>
    match matchTag (c :: cs) with
    | some n => stripTagsFuel fuel (cs.drop (n - 1))
    | none => c :: stripTagsFuel fuel cs

/-- `text.replace(/<[^>]+>/g, '')`. -/
def stripTags (l : List Char) : List Char :=
  stripTagsFuel l.length l

/-- JS whitespace for `String.prototype.trim` (the characters that can
occur in this pipeline's text). -/
def isJsSpace (c : Char) : Bool :=
  decide (c = ' ' ∨ c = '\t' ∨ c = '\n' ∨ c = '\r')

/-- `String.prototype.trim`. -/
def trimChars (l : List Char) : List Char :=
  ((l.dropWhile isJsSpace).reverse.dropWhile isJsSpace).reverse

/-- The cleaning done at the top of `generateAudio` (lines 156-160):
brackets, then phoneme tags, then remaining markup tags. -/
def cleanTextTTS (text : List Char) : List Char :=
  stripTags (stripPhoneme (stripBrackets text))

/-- The cleaning done in `processFullScript` (lines 301-303): brackets,
`trim`, phoneme tags, remaining markup tags. -/
def cleanContentIngest (newContent : List Char) : List Char :=
  stripTags (stripPhoneme (trimChars (stripBrackets newContent)))

/-! ### Chunking and `generateAudio` -/

/-- Google TTS safety limit used by `generateAudio`. -/
def MAX_CHARS : Nat := 4500

/-- `String.prototype.lastIndexOf` restricted to a single character:
index of the last occurrence, `none` for JS's `-1`. -/
def lastIndexOfChar (c : Char) : List Char → Option Nat
  | [] => none
  | x :: xs =>
    match lastIndexOfChar c xs with
    | some k => some (k + 1)
    | none => if x = c then some 0 else none

/-- The `endIndex - startIndex` computed by one iteration of the
chunking loop (lines 171-181): the window is the next `MAX_CHARS`
characters; if the last `'.'` in the window sits at a window-relative
index `> 0` the chunk ends just after it, otherwise it is cut at
`MAX_CHARS`. -/
def chunkEnd (cleanText : List Char) : Nat :=
  match lastIndexOfChar '.' (cleanText.take MAX_CHARS) with
  | some k => if 0 < k then k + 1 else MAX_CHARS
  | none => MAX_CHARS

/-- The chunking loop of `generateAudio` (lines 164-188) on fuel: every
iteration consumes `chunkEnd ≥ 1` characters, so `fuel =
cleanText.length` steps are exact (`fuel = 0` is only reached on `[]`,
where pushing the remainder `[]` agrees with the `≤ MAX_CHARS` exit). -/
def splitChunksFuel : Nat → List Char → List (List Char)
  | 0, cleanText => [cleanText]
  | fuel + 1, cleanText =>
    if cleanText.length ≤ MAX_CHARS then [cleanText]
    else
      cleanText.take (chunkEnd cleanText) ::
        splitChunksFuel fuel (cleanText.drop (chunkEnd cleanText))

/-- The `textChunks` array built by `generateAudio` from the cleaned
text: texts of at most `MAX_CHARS` characters are one chunk; longer
texts are split by the loop, whose `endIndex >= cleanText.length` exit
pushes the final short remainder. -/
def splitChunks (cleanText : List Char) : List (List Char) :=
  splitChunksFuel cleanText.length cleanText

/-- `generateAudio(text, segmentId)` with the TTS API key configured.
`tts` is the oracle saying which chunk requests the provider answers;
any failing chunk raises, landing in the `catch` that returns `null`
with nothing written.  On success the combined audio is written to
`CURRENT_DIR/segment-<id>.mp3` and the first segment with this id (if
any) gets `audioFile` set and `status='ready'` in one queue write. -/
def generateAudio (s : PipelineState) (text : List Char) (segmentId : Int)
    (tts : List Char → Bool) : PipelineState × Option AudioPath :=
  let cleanText := cleanTextTTS text
  let textChunks := splitChunks cleanText
  if textChunks.all tts then
    let audioFile : AudioPath := ⟨Dir.current, segmentId⟩
    ({ s with
        files := fsWrite s.files audioFile
        segments := updateFirst (fun g => decide (g.id = segmentId))
          (fun seg => { seg with audioFile := some audioFile, status := Status.ready })
          s.segments },
      some audioFile)
  else (s, none)

/-! ### Retention sweep and ingest -/

/-- Retention window in days. -/
def MAX_SCRIPT_AGE_DAYS : Nat := 7

/-- Milliseconds per day; the source's `cutoffDate.setDate(getDate() -
MAX_SCRIPT_AGE_DAYS)` is modelled as subtracting that many days of
milliseconds. -/
def msPerDay : Int := 24 * 60 * 60 * 1000

/-- The filter test of `cleanupOldSpokenSegments`: status `'spoken'` and
`new Date(spokenAt) < cutoffDate`.  A missing `spokenAt` gives an
invalid date, whose comparison is false in JS. -/
def shouldPurge (cutoffDate : Int) (seg : Segment) : Bool :=
  decide (seg.status = Status.spoken) &&
    (match seg.spokenAt with
     | some t => decide (t < cutoffDate)
     | none => false)

/-- `cleanupOldSpokenSegments()`: drop every purgeable segment from the
queue, unlinking its audio file when it exists. -/
def cleanupOldSpokenSegments (s : PipelineState) (now : Int) : PipelineState :=
  let cutoffDate := now - (MAX_SCRIPT_AGE_DAYS : Int) * msPerDay
  { s with
    segments := s.segments.filter (fun seg => ! shouldPurge cutoffDate seg)
    files := s.segments.foldl
      (fun fs seg =>
        if shouldPurge cutoffDate seg then
          match seg.audioFile with
          | some f => fsUnlink fs f
          | none => fs
        else fs)
      s.files }

/-- `/[.!?]/.test` — the complete-sentence heuristic of the ingestor. -/
def isSentencePunct (c : Char) : Bool :=
  decide (c = '.' ∨ c = '!' ∨ c = '?')

/-- `processFullScript()` with the transcript file present and equal to
`fullScript`.  Reads the suffix past `lastPosition`; if it is non-empty
after `trim` and contains sentence punctuation, the cursor is advanced
to the full length and persisted; the cleaned suffix is then appended
as a new `pending` segment — unless cleaning left it empty, in which
case nothing is appended (but the cursor stays advanced). -/
def processFullScript (s : PipelineState) (fullScript : List Char) (now : Int) :
    PipelineState × Option Segment :=
  let startPosition := s.lastPosition
  if startPosition < fullScript.length then
    let newContent := fullScript.drop startPosition
    if trimChars newContent ≠ [] ∧ newContent.any isSentencePunct then
      let s₁ : PipelineState := { s with lastPosition := fullScript.length }
      let cleanContent := cleanContentIngest newContent
      if cleanContent ≠ [] then
        let r := addSegmentToQueue s₁ cleanContent none now
        (r.1, some r.2)
      else (s₁, none)
    else (s, none)
  else (s, none)

/-! ### Server endpoints and reachability -/

/-- `POST /api/mark-spoken/:id` (voice-server.js lines 153-170): calls
`markSegmentAsSpoken` and replies `{success: true}`; the catch branch is
unreachable in this model since the operation never throws. -/
def markSpokenEndpoint (s : PipelineState) (segmentId : Int) (now : Int) :
    PipelineState × Bool :=
  (markSegmentAsSpoken s segmentId now, true)

/-- The state change performed by `GET /api/next-segment`: fetch the
next segment; if it is `pending` with no audio, run `generateAudio` on
its text and id. -/
def nextSegmentStep (s : PipelineState) (tts : List Char → Bool) :
    PipelineState :=
  match getNextSegmentToSpeak s with
  | none => s
  | some seg =>
    if seg.status = Status.pending ∧ seg.audioFile = none then
      (generateAudio s seg.text seg.id tts).1
    else s

/-- One pipeline operation: ingest, synthesis via the delivery endpoint,
mark-spoken (any id, any time), or the retention sweep. -/
inductive Step : PipelineState → PipelineState → Prop where
  | ingest (s : PipelineState) (script : List Char) (now : Int) :
      Step s (processFullScript s script now).1
  | next (s : PipelineState) (tts : List Char → Bool) :
      Step s (nextSegmentStep s tts)
  | mark (s : PipelineState) (segmentId now : Int) :
      Step s (markSegmentAsSpoken s segmentId now)
  | cleanup (s : PipelineState) (now : Int) :
      Step s (cleanupOldSpokenSegments s now)

/-- States reachable from the freshly initialised queue by pipeline
operations. -/
def Reachable (s : PipelineState) : Prop :=
  Relation.ReflTransGen Step initState s

/-- Repeated `addSegmentToQueue` with given texts and `Date.now()`
values, default timestamps. -/
def appendAll (s : PipelineState) (items : List (List Char × Int)) :
    PipelineState :=
  items.foldl (fun st it => (addSegmentToQueue st it.1 none it.2).1) s

/-! ### Concrete states and texts used in scenarios -/

/-- The spec's ingest scenario transcript. -/
def helloScript : List Char := "Hello world. This is segment one.".toList

/-- A transcript suffix that passes the ingest guard (non-empty,
non-whitespace, has a `'.'`) but whose cleaned form is empty. -/
def bracketScript : List Char := "[a.]".toList

/-- A queue holding one pending segment with id 1 (appended at
`Date.now() = 1`). -/
def hiState : PipelineState := (addSegmentToQueue initState "Hi.".toList none 1).1

/-- Ingest `"Hello."` at time 1 (making a pending segment with id 1),
then mark it spoken at time 2 — reachable by two pipeline steps. -/
def spokenNoAudioState : PipelineState :=
  markSegmentAsSpoken (processFullScript initState "Hello.".toList 1).1 1 2

/-- Two appends that both observe `Date.now() = 5`. -/
def dupState : PipelineState :=
  (addSegmentToQueue (addSegmentToQueue initState "A.".toList none 5).1
    "B.".toList none 5).1

/-- A 6000-character text whose only sentence-ending punctuation is a
`'!'` at index 4200. -/
def bangText : List Char :=
  List.replicate 4200 'a' ++ '!' :: List.replicate 1799 'a'

/-- A 6000-character text whose only sentence-ending punctuation is a
`'.'` at index 4200. -/
def dotText : List Char :=
  List.replicate 4200 'a' ++ '.' :: List.replicate 1799 'a'

/-- The retention scenario clock (milliseconds). -/
def demoNow : Int := 1000000000000

/-- Spoken 8 days ago, audio archived: must be purged. -/
def seg8d : Segment :=
  { id := 11, text := "old".toList, timestamp := 0, status := Status.spoken
    audioFile := some ⟨Dir.spoken, 11⟩, spokenAt := some (demoNow - 8 * msPerDay) }

/-- Spoken 6 days ago, audio archived: must be retained. -/
def seg6d : Segment :=
  { id := 12, text := "new".toList, timestamp := 0, status := Status.spoken
    audioFile := some ⟨Dir.spoken, 12⟩, spokenAt := some (demoNow - 6 * msPerDay) }

/-- A pending segment: must be retained. -/
def segPend : Segment :=
  { id := 13, text := "next".toList, timestamp := 0, status := Status.pending
    audioFile := none, spokenAt := none }

/-- Retention scenario state: one purgeable spoken segment, one recent
spoken segment, one pending segment. -/
def cleanupDemo : PipelineState :=
  { lastPosition := 42
    segments := [seg8d, seg6d, segPend]
    files := [⟨Dir.spoken, 11⟩, ⟨Dir.spoken, 12⟩] }

/-- The part of the audio-presence invariant that the code actually
maintains: a `ready` segment always has audio, and a segment holding
audio is never `pending`.  (A `spoken` segment may have no audio: see
the counterexample to the `iff` form.) -/
def AudioInvariant (s : PipelineState) : Prop :=
  ∀ seg ∈ s.segments,
    (seg.status = Status.ready → seg.audioFile ≠ none) ∧
    (seg.audioFile ≠ none →
      seg.status = Status.ready ∨ seg.status = Status.spoken)

/-- The observable store state named by the idempotency property: id,
status, audio location and `spokenAt` of every segment, in order. -/
def obsSegments (s : PipelineState) :
    List (Int × Status × Option AudioPath × Option Int) :=
  s.segments.map (fun g => (g.id, g.status, g.audioFile, g.spokenAt))

/-- The segment produced by ingesting `"Hello."` into the fresh store at
`Date.now() = 1`. -/
def helloSeg : Segment :=
  { id := 1, text := "Hello.".toList, timestamp := 1
    status := Status.pending, audioFile := none, spokenAt := none }

/-- The single segment of `hiState`. -/
def hiSeg : Segment :=
  { id := 1, text := "Hi.".toList, timestamp := 1
    status := Status.pending, audioFile := none, spokenAt := none }

/-! ## Helper lemmas on the chunking loop -/

theorem lastIndexOfChar_eq_none {c : Char} {l : List Char}
    (h : ∀ x ∈ l, x ≠ c) : lastIndexOfChar c l = none := by
  induction l with
  | nil => rfl
  | cons x xs ih =>
    have hx : x ≠ c := h x (List.mem_cons_self x xs)
    have hxs : lastIndexOfChar c xs = none :=
      ih (fun y hy => h y (List.mem_cons_of_mem x hy))
    simp [lastIndexOfChar, hxs, hx]

theorem lastIndexOfChar_some_lt {c : Char} {l : List Char} {k : Nat}
    (h : lastIndexOfChar c l = some k) : k < l.length := by
  induction l generalizing k with
  | nil => simp [lastIndexOfChar] at h
  | cons x xs ih =>
    cases hr : lastIndexOfChar c xs with
    | some m =>
      rw [lastIndexOfChar, hr] at h
      cases h
      have := ih hr
      simp only [List.length_cons]
      omega
    | none =>
      rw [lastIndexOfChar, hr] at h
      by_cases hx : x = c
      · simp [hx] at h
        simp only [List.length_cons]
        omega
      · simp [hx] at h

theorem lastIndexOfChar_append (c : Char) (l₁ l₂ : List Char) :
    lastIndexOfChar c (l₁ ++ l₂) =
      match lastIndexOfChar c l₂ with
      | some k => some (l₁.length + k)
      | none => lastIndexOfChar c l₁ := by
  induction l₁ with
  | nil =>
    cases h : lastIndexOfChar c l₂ <;> simp [h, lastIndexOfChar]
  | cons x xs ih =>
    show lastIndexOfChar c (x :: (xs ++ l₂)) = _
    rw [lastIndexOfChar, ih]
    cases h₂ : lastIndexOfChar c l₂ with
    | some k => simp only [List.length_cons]; congr 1; omega
    | none => rw [lastIndexOfChar]

theorem chunkEnd_pos (l : List Char) : 0 < chunkEnd l := by
  unfold chunkEnd
  cases h : lastIndexOfChar '.' (l.take MAX_CHARS) with
  | none => simp [MAX_CHARS]
  | some k =>
    simp only
    split
    · omega
    · simp [MAX_CHARS]

theorem chunkEnd_le (l : List Char) : chunkEnd l ≤ MAX_CHARS := by
  unfold chunkEnd
  cases h : lastIndexOfChar '.' (l.take MAX_CHARS) with
  | none => exact le_refl _
  | some k =>
    simp only
    split
    · have hk := lastIndexOfChar_some_lt h
      rw [List.length_take] at hk
      omega
    · exact le_refl _

theorem splitChunksFuel_congr :
    ∀ (f₁ : Nat) (f₂ : Nat) (l : List Char), l.length ≤ f₁ → l.length ≤ f₂ →
      splitChunksFuel f₁ l = splitChunksFuel f₂ l := by
  intro f₁
  induction f₁ with
  | zero =>
    intro f₂ l h₁ _
    have hl : l = [] := List.eq_nil_of_length_eq_zero (Nat.le_zero.mp h₁)
    subst hl
    cases f₂ with
    | zero => rfl
    | succ b => simp [splitChunksFuel, MAX_CHARS]
  | succ a ih =>
    intro f₂ l h₁ h₂
    cases f₂ with
    | zero =>
      have hl : l = [] := List.eq_nil_of_length_eq_zero (Nat.le_zero.mp h₂)
      subst hl
      simp [splitChunksFuel, MAX_CHARS]
    | succ b =>
      rw [splitChunksFuel, splitChunksFuel]
      by_cases hle : l.length ≤ MAX_CHARS
      · simp [hle]
      · simp only [hle, if_false]
        have he := chunkEnd_pos l
        have hlen : (l.drop (chunkEnd l)).length ≤ a := by
          simp only [List.length_drop]; omega
        have hlen₂ : (l.drop (chunkEnd l)).length ≤ b := by
          simp only [List.length_drop]; omega
        rw [ih b _ hlen hlen₂]

theorem splitChunks_eq (l : List Char) :
    splitChunks l =
      if l.length ≤ MAX_CHARS then [l]
      else l.take (chunkEnd l) :: splitChunks (l.drop (chunkEnd l)) := by
  unfold splitChunks
  cases hn : l.length with
  | zero =>
    have hl : l = [] := List.eq_nil_of_length_eq_zero hn
    subst hl
    simp [splitChunksFuel, MAX_CHARS]
  | succ n =>
    rw [splitChunksFuel]
    by_cases hle : l.length ≤ MAX_CHARS
    · rw [← hn]
      simp [hle]
    · rw [← hn]
      simp only [hle, if_false]
      have he := chunkEnd_pos l
      have hlen : (l.drop (chunkEnd l)).length ≤ n := by
        simp only [List.length_drop]; omega
      rw [splitChunksFuel_congr n (l.drop (chunkEnd l)).length _ hlen (le_refl _)]

theorem splitChunks_spec (l : List Char) :
    (∀ c ∈ splitChunks l, c.length ≤ MAX_CHARS) ∧ (splitChunks l).flatten = l := by
  rw [splitChunks_eq l]
  split
  · rename_i h
    constructor
    · intro c hc
      rw [List.mem_singleton] at hc
      subst hc
      exact h
    · simp
  · rename_i h
    have ih := splitChunks_spec (l.drop (chunkEnd l))
    constructor
    · intro c hc
      rcases List.mem_cons.mp hc with rfl | hc
      · rw [List.length_take]
        exact le_trans (Nat.min_le_left _ _) (chunkEnd_le l)
      · exact ih.1 c hc
    · rw [List.flatten_cons, ih.2, List.take_append_drop]
termination_by l.length
decreasing_by
  simp only [List.length_drop]
  have := chunkEnd_pos l
  omega

theorem splitChunks_small {text : List Char} (h : text.length ≤ MAX_CHARS) :
    splitChunks text = [text] := by
  rw [splitChunks_eq, if_pos h]

theorem splitChunks_noDot {text : List Char} (hlen : MAX_CHARS < text.length)
    (hdot : lastIndexOfChar '.' (text.take MAX_CHARS) = none) :
    splitChunks text = text.take MAX_CHARS :: splitChunks (text.drop MAX_CHARS) := by
  rw [splitChunks_eq, if_neg (by omega)]
  have he : chunkEnd text = MAX_CHARS := by
    unfold chunkEnd
    rw [hdot]
  rw [he]

theorem splitChunks_dotAt {text : List Char} {k : Nat}
    (hlen : MAX_CHARS < text.length)
    (hdot : lastIndexOfChar '.' (text.take MAX_CHARS) = some k) (hk : 0 < k) :
    splitChunks text = text.take (k + 1) :: splitChunks (text.drop (k + 1)) := by
  rw [splitChunks_eq, if_neg (by omega)]
  have he : chunkEnd text = k + 1 := by
    unfold chunkEnd
    rw [hdot]
    simp [hk]
  rw [he]

/-! ## Computations on the two 6000-character scenario texts -/

theorem bangText_length : bangText.length = 6000 := by
  rw [bangText, List.length_append, List.length_cons, List.length_replicate,
    List.length_replicate]

theorem dotText_length : dotText.length = 6000 := by
  rw [dotText, List.length_append, List.length_cons, List.length_replicate,
    List.length_replicate]

theorem bangText_take : bangText.take MAX_CHARS =
    List.replicate 4200 'a' ++ '!' :: List.replicate 299 'a' := by
  rw [bangText, MAX_CHARS, List.take_append_eq_append_take]
  rw [List.take_replicate, List.length_replicate]
  norm_num

theorem bangText_drop : bangText.drop MAX_CHARS = List.replicate 1500 'a' := by
  rw [bangText, MAX_CHARS, List.drop_append_eq_append_drop]
  rw [List.drop_replicate, List.length_replicate]
  norm_num

theorem dotText_take : dotText.take MAX_CHARS =
    List.replicate 4200 'a' ++ '.' :: List.replicate 299 'a' := by
  rw [dotText, MAX_CHARS, List.take_append_eq_append_take]
  rw [List.take_replicate, List.length_replicate]
  norm_num

theorem dotText_take4201 : dotText.take 4201 = List.replicate 4200 'a' ++ ['.'] := by
  rw [dotText, List.take_append_eq_append_take]
  rw [List.take_replicate, List.length_replicate]
  norm_num

theorem dotText_drop4201 : dotText.drop 4201 = List.replicate 1799 'a' := by
  rw [dotText, List.drop_append_eq_append_drop]
  rw [List.drop_replicate, List.length_replicate]
  norm_num

theorem noDot_replicate_a (n : Nat) :
    lastIndexOfChar '.' (List.replicate n 'a') = none := by
  apply lastIndexOfChar_eq_none
  intro x hx
  rw [List.mem_replicate] at hx
  rw [hx.2]
  decide

theorem bangText_lastDot : lastIndexOfChar '.' (bangText.take MAX_CHARS) = none := by
  rw [bangText_take]
  apply lastIndexOfChar_eq_none
  intro x hx
  rcases List.mem_append.mp hx with hx | hx
  · rw [List.mem_replicate] at hx
    rw [hx.2]
    decide
  · rcases List.mem_cons.mp hx with rfl | hx
    · decide
    · rw [List.mem_replicate] at hx
      rw [hx.2]
      decide

theorem dotText_lastDot : lastIndexOfChar '.' (dotText.take MAX_CHARS) = some 4200 := by
  rw [dotText_take, lastIndexOfChar_append]
  have h1 : lastIndexOfChar '.' ('.' :: List.replicate 299 'a') = some 0 := by
    rw [lastIndexOfChar, noDot_replicate_a]
    decide
  rw [h1]
  dsimp only
  rw [List.length_replicate]

/-! ## Claims C5 and C6: chunking -/

/-- Claim C5 (amended): when `generateAudio` splits a text longer than
`MAX_CHARS`, the only break character considered is `'.'`: if the last
`'.'` of the window sits at a window-relative index `> 0` the chunk ends
just after it (so for the 6000-character text with its last in-window
`'.'` at index 4200 the chunks are the first 4201 characters and the
1799 remaining ones); `'!'`, `'?'` and commas are never considered, and
with no `'.'` in the window the text is hard-cut at `MAX_CHARS` (as
happens on the same text with `'!'` in place of the `'.'`). -/
theorem chunk_split_points :
    splitChunks dotText = [List.replicate 4200 'a' ++ ['.'], List.replicate 1799 'a'] ∧
    splitChunks bangText =
      [List.replicate 4200 'a' ++ '!' :: List.replicate 299 'a',
       List.replicate 1500 'a'] ∧
    (∀ text : List Char, MAX_CHARS < text.length →
      lastIndexOfChar '.' (text.take MAX_CHARS) = none →
      splitChunks text = text.take MAX_CHARS :: splitChunks (text.drop MAX_CHARS)) ∧
    (∀ (text : List Char) (k : Nat), MAX_CHARS < text.length →
      lastIndexOfChar '.' (text.take MAX_CHARS) = some k → 0 < k →
      splitChunks text = text.take (k + 1) :: splitChunks (text.drop (k + 1))) := by
  refine ⟨?_, ?_, @splitChunks_noDot, @splitChunks_dotAt⟩
  · rw [splitChunks_dotAt (by rw [dotText_length, MAX_CHARS]; norm_num)
      dotText_lastDot (by norm_num)]
    rw [dotText_take4201, dotText_drop4201,
      splitChunks_small (by rw [List.length_replicate, MAX_CHARS]; norm_num)]
  · rw [splitChunks_noDot (by rw [bangText_length, MAX_CHARS]; norm_num)
      bangText_lastDot]
    rw [bangText_take, bangText_drop,
      splitChunks_small (by rw [List.length_replicate, MAX_CHARS]; norm_num)]

/-- Claim C5 counterexample: the 6000-character text whose last (and
only) in-window sentence break — a `'!'` at index 4200 — is not split
there: the code's chunks have lengths 4500 and 1500, not the claimed
4201 and 1799, because `generateAudio` never looks at `'!'`, `'?'` or
commas. -/
theorem chunk_split_cex :
    bangText.length = 6000 ∧
    bangText[4200]? = some '!' ∧
    (∀ c ∈ bangText, c = 'a' ∨ c = '!') ∧
    (splitChunks bangText).map List.length = [4500, 1500] ∧
    (splitChunks bangText).map List.length ≠ [4201, 1799] := by
  have hchunks : splitChunks bangText =
      [List.replicate 4200 'a' ++ '!' :: List.replicate 299 'a',
       List.replicate 1500 'a'] := by
    rw [splitChunks_noDot (by rw [bangText_length, MAX_CHARS]; norm_num)
      bangText_lastDot]
    rw [bangText_take, bangText_drop,
      splitChunks_small (by rw [List.length_replicate, MAX_CHARS]; norm_num)]
  have hlens : (splitChunks bangText).map List.length = [4500, 1500] := by
    rw [hchunks]
    simp only [List.map_cons, List.map_nil, List.length_append, List.length_cons,
      List.length_replicate]
  refine ⟨bangText_length, ?_, ?_, hlens, by rw [hlens]; decide⟩
  · rw [bangText, List.getElem?_append_right (by rw [List.length_replicate])]
    rw [List.length_replicate]
    norm_num
  · intro c hc
    rw [bangText] at hc
    rcases List.mem_append.mp hc with hc | hc
    · exact Or.inl (List.mem_replicate.mp hc).2
    · rcases List.mem_cons.mp hc with rfl | hc
      · exact Or.inr rfl
      · exact Or.inl (List.mem_replicate.mp hc).2

/-- Claim C5 witness: the general hard-cut branch of the amended claim
applied to the concrete `'!'` text. -/
theorem chunk_split_witness :
    MAX_CHARS < bangText.length ∧
    lastIndexOfChar '.' (bangText.take MAX_CHARS) = none ∧
    splitChunks bangText = bangText.take MAX_CHARS :: splitChunks (bangText.drop MAX_CHARS) :=
  ⟨by rw [bangText_length, MAX_CHARS]; norm_num, bangText_lastDot,
    chunk_split_points.2.2.1 bangText
      (by rw [bangText_length, MAX_CHARS]; norm_num) bangText_lastDot⟩

/-- Claim C6: for every input text, the chunks `generateAudio` produces
from the sanitised text each have length at most `MAX_CHARS`, and
concatenating them in order reconstructs the sanitised text exactly. -/
theorem chunks_bounded_and_reconstruct (text : List Char) :
    (∀ c ∈ splitChunks (cleanTextTTS text), c.length ≤ MAX_CHARS) ∧
    (splitChunks (cleanTextTTS text)).flatten = cleanTextTTS text :=
  splitChunks_spec (cleanTextTTS text)

/-! ## Claim C7: failed synthesis aborts with no state change -/

/-- Claim C7: if the TTS request fails for any chunk, `generateAudio`
returns `null` and leaves the whole state untouched: no audio file is
written (not even for chunks that succeeded), the segment record keeps
its status and null `audioFile`, and nothing retries inside the call. -/
theorem synthesis_failure_aborts (s : PipelineState) (text : List Char)
    (segmentId : Int) (tts : List Char → Bool)
    (h : ∃ c ∈ splitChunks (cleanTextTTS text), tts c = false) :
    generateAudio s text segmentId tts = (s, none) := by
  simp only [generateAudio]
  rw [if_neg]
  intro hall
  obtain ⟨c, hc, hfc⟩ := h
  have htrue := List.all_eq_true.mp hall c hc
  rw [hfc] at htrue
  exact Bool.false_ne_true htrue

/-- Claim C7 witness: a TTS oracle failing on every chunk leaves the
one-pending-segment state untouched. -/
theorem synthesis_failure_witness :
    (∃ c ∈ splitChunks (cleanTextTTS "Hi.".toList),
      (fun _ : List Char => false) c = false) ∧
    generateAudio hiState "Hi.".toList 1 (fun _ => false) = (hiState, none) :=
  ⟨⟨"Hi.".toList, by decide, rfl⟩,
    synthesis_failure_aborts hiState "Hi.".toList 1 (fun _ => false)
      ⟨"Hi.".toList, by decide, rfl⟩⟩

/-! ## Claim C9: mark-spoken on a missing id -/

/-- Claim C9: for every id not present in the store, the mark-spoken
endpoint replies `{success: true}` and the store is unchanged. -/
theorem markSpoken_missing_id (s : PipelineState) (segmentId now : Int)
    (h : ∀ g ∈ s.segments, g.id ≠ segmentId) :
    markSpokenEndpoint s segmentId now = (s, true) := by
  unfold markSpokenEndpoint markSegmentAsSpoken
  have hf : s.segments.find? (fun g => decide (g.id = segmentId)) = none := by
    rw [List.find?_eq_none]
    intro x hx
    simp [h x hx]
  rw [hf]

/-- Claim C9 witness: id 99 is absent from the one-segment store. -/
theorem markSpoken_missing_witness :
    (∀ g ∈ hiState.segments, g.id ≠ 99) ∧
    markSpokenEndpoint hiState 99 7 = (hiState, true) :=
  ⟨by decide, markSpoken_missing_id hiState 99 7 (by decide)⟩

/-! ## Claim C10: segment id uniqueness -/

theorem appendAll_map_id (items : List (List Char × Int)) :
    ∀ s : PipelineState, (appendAll s items).segments.map Segment.id =
      s.segments.map Segment.id ++ items.map Prod.snd := by
  induction items with
  | nil =>
    intro s
    simp [appendAll]
  | cons it its ih =>
    intro s
    rw [show appendAll s (it :: its) =
      appendAll (addSegmentToQueue s it.1 none it.2).1 its from rfl, ih]
    simp [addSegmentToQueue]

/-- Claim C10 counterexample: two appends that both observe `Date.now()
= 5` both succeed, storing two segments with the same id 5 — there is
no duplicate-id check and no error. -/
theorem append_duplicate_cex :
    dupState.segments.map Segment.id = [5, 5] ∧
    dupState.segments.length = 2 ∧
    ¬ (dupState.segments.map Segment.id).Nodup :=
  ⟨by decide, by decide, by decide⟩

/-- Claim C10 (amended): `addSegmentToQueue` never rejects anything —
it always appends exactly one segment whose id is the `Date.now()`
value observed by the call, so the stored ids are exactly the append
timestamps, and they are pairwise distinct precisely when those
timestamps (together with any pre-existing ids) are. -/
theorem append_ids_amended :
    (∀ (s : PipelineState) (items : List (List Char × Int)),
      (appendAll s items).segments.map Segment.id =
        s.segments.map Segment.id ++ items.map Prod.snd) ∧
    (∀ (s : PipelineState) (text : List Char) (ts : Option Int) (now : Int),
      (addSegmentToQueue s text ts now).1.segments.length = s.segments.length + 1 ∧
      (addSegmentToQueue s text ts now).2.id = now) ∧
    (∀ (s : PipelineState) (items : List (List Char × Int)),
      (s.segments.map Segment.id ++ items.map Prod.snd).Nodup →
      ((appendAll s items).segments.map Segment.id).Nodup) := by
  refine ⟨fun s items => appendAll_map_id items s, ?_, ?_⟩
  · intro s text ts now
    exact ⟨by simp [addSegmentToQueue], rfl⟩
  · intro s items h
    rw [appendAll_map_id items s]
    exact h

/-- Claim C10 witness: two appends at distinct times 1 and 2 yield
distinct ids. -/
theorem append_ids_witness :
    (initState.segments.map Segment.id ++
      ([("A".toList, (1 : Int)), ("B".toList, 2)].map Prod.snd)).Nodup ∧
    ((appendAll initState
      [("A".toList, (1 : Int)), ("B".toList, 2)]).segments.map Segment.id).Nodup :=
  ⟨by decide,
    append_ids_amended.2.2 initState [("A".toList, (1 : Int)), ("B".toList, 2)]
      (by decide)⟩

/-! ## Claim C3: FIFO service order -/

theorem find?_all_true {p : Segment → Bool} {l : List Segment}
    (h : ∀ g ∈ l, p g = true) : l.find? p = l.head? := by
  cases l with
  | nil => rfl
  | cons x xs =>
    rw [List.find?_cons_of_pos _ (h x (List.mem_cons_self x xs)), List.head?_cons]

theorem appendAll_all_pending (items : List (List Char × Int)) :
    ∀ s : PipelineState, (∀ g ∈ s.segments, g.status = Status.pending) →
      ∀ g ∈ (appendAll s items).segments, g.status = Status.pending := by
  induction items with
  | nil => intro s h; exact h
  | cons it its ih =>
    intro s h
    rw [show appendAll s (it :: its) =
      appendAll (addSegmentToQueue s it.1 none it.2).1 its from rfl]
    apply ih
    intro g hg
    simp only [addSegmentToQueue] at hg
    rcases List.mem_append.mp hg with hg | hg
    · exact h g hg
    · rw [List.mem_singleton] at hg
      subst hg
      rfl

theorem find?_first {p : Segment → Bool} :
    ∀ {l : List Segment} {a : Segment}, l.find? p = some a →
      ∃ i : Nat, l[i]? = some a ∧ p a = true ∧
        ∀ j, j < i → ∀ g : Segment, l[j]? = some g → p g = false := by
  intro l
  induction l with
  | nil => intro a h; simp [List.find?] at h
  | cons x xs ih =>
    intro a h
    by_cases hx : p x
    · rw [List.find?_cons_of_pos _ hx] at h
      cases h
      exact ⟨0, by simp, hx, fun j hj => absurd hj (by omega)⟩
    · rw [List.find?_cons_of_neg _ hx] at h
      obtain ⟨i, hi, hpa, hbef⟩ := ih h
      refine ⟨i + 1, by simpa using hi, hpa, ?_⟩
      intro j hj g hg
      cases j with
      | zero =>
        rw [List.getElem?_cons_zero] at hg
        cases hg
        exact Bool.eq_false_iff.mpr hx
      | succ j =>
        rw [List.getElem?_cons_succ] at hg
        exact hbef j (by omega) g hg

/-- Claim C3: a store built by appends alone serves its earliest
(head) segment, and in general `getNextSegmentToSpeak` returns the
first segment in insertion order whose status is `pending` or `ready`
— every segment before it is `spoken`, so nothing is reordered or
skipped. -/
theorem fifo_next_segment :
    (∀ items : List (List Char × Int),
      getNextSegmentToSpeak (appendAll initState items) =
        (appendAll initState items).segments.head?) ∧
    (∀ (s : PipelineState) (seg : Segment),
      getNextSegmentToSpeak s = some seg →
      (seg.status = Status.pending ∨ seg.status = Status.ready) ∧
      ∃ i : Nat, s.segments[i]? = some seg ∧
        ∀ j, j < i → ∀ g : Segment, s.segments[j]? = some g →
          g.status = Status.spoken) := by
  constructor
  · intro items
    unfold getNextSegmentToSpeak
    apply find?_all_true
    intro g hg
    have hp := appendAll_all_pending items initState
      (by intro g hg; simp [initState] at hg) g hg
    simp [hp]
  · intro s seg h
    unfold getNextSegmentToSpeak at h
    obtain ⟨i, hi, hpa, hbef⟩ := find?_first h
    have hstat : seg.status = Status.pending ∨ seg.status = Status.ready := by
      simpa using hpa
    refine ⟨hstat, i, hi, ?_⟩
    intro j hj g hg
    have hfalse := hbef j hj g hg
    cases hsg : g.status
    · rw [hsg] at hfalse
      simp at hfalse
    · rw [hsg] at hfalse
      simp at hfalse
    · rfl

/-- Claim C3 witness: the FIFO characterisation applied to the store
holding one pending segment. -/
theorem fifo_witness :
    (hiSeg.status = Status.pending ∨ hiSeg.status = Status.ready) ∧
    ∃ i : Nat, hiState.segments[i]? = some hiSeg ∧
      ∀ j, j < i → ∀ g : Segment, hiState.segments[j]? = some g →
        g.status = Status.spoken :=
  fifo_next_segment.2 hiState hiSeg (by decide)

/-! ## Claim C1: the audio-presence invariant -/

theorem mem_updateFirst {p : Segment → Bool} {f : Segment → Segment} :
    ∀ {l : List Segment} {g : Segment}, g ∈ updateFirst p f l →
      g ∈ l ∨ ∃ x, x ∈ l ∧ p x = true ∧ g = f x := by
  intro l
  induction l with
  | nil => intro g h; simp [updateFirst] at h
  | cons x xs ih =>
    intro g h
    rw [updateFirst] at h
    by_cases hx : p x
    · rw [if_pos hx] at h
      rcases List.mem_cons.mp h with rfl | h
      · exact Or.inr ⟨x, List.mem_cons_self x xs, hx, rfl⟩
      · exact Or.inl (List.mem_cons_of_mem x h)
    · rw [if_neg hx] at h
      rcases List.mem_cons.mp h with rfl | h
      · exact Or.inl (List.mem_cons_self g xs)
      · rcases ih h with h | ⟨y, hy, hpy, rfl⟩
        · exact Or.inl (List.mem_cons_of_mem x h)
        · exact Or.inr ⟨y, List.mem_cons_of_mem x hy, hpy, rfl⟩

theorem audioInvariant_generateAudio {s : PipelineState}
    (hinv : AudioInvariant s) (text : List Char) (segmentId : Int)
    (tts : List Char → Bool) :
    AudioInvariant (generateAudio s text segmentId tts).1 := by
  simp only [generateAudio]
  split
  · intro g hg
    rcases mem_updateFirst hg with hg | ⟨x, hx, hpx, rfl⟩
    · exact hinv g hg
    · constructor
      · intro _
        simp
      · intro _
        exact Or.inl rfl
  · exact hinv

theorem audioInvariant_mark {s : PipelineState} (hinv : AudioInvariant s)
    (segmentId now : Int) :
    AudioInvariant (markSegmentAsSpoken s segmentId now) := by
  unfold markSegmentAsSpoken
  cases hf : s.segments.find? (fun g => decide (g.id = segmentId)) with
  | none => exact hinv
  | some seg =>
    dsimp only
    cases haf : seg.audioFile with
    | none =>
      dsimp only
      intro g hg
      rcases mem_updateFirst hg with hg | ⟨x, hx, hpx, rfl⟩
      · exact hinv g hg
      · exact ⟨fun hr => by simp at hr, fun _ => Or.inr rfl⟩
    | some f =>
      dsimp only
      by_cases hex : fsExists s.files f
      · rw [if_pos hex]
        intro g hg
        rcases mem_updateFirst hg with hg | ⟨x, hx, hpx, rfl⟩
        · exact hinv g hg
        · exact ⟨fun hr => by simp at hr, fun _ => Or.inr rfl⟩
      · rw [if_neg hex]
        intro g hg
        rcases mem_updateFirst hg with hg | ⟨x, hx, hpx, rfl⟩
        · exact hinv g hg
        · exact ⟨fun hr => by simp at hr, fun _ => Or.inr rfl⟩

theorem audioInvariant_ingest {s : PipelineState} (hinv : AudioInvariant s)
    (script : List Char) (now : Int) :
    AudioInvariant (processFullScript s script now).1 := by
  simp only [processFullScript]
  split
  · split
    · split
      · intro g hg
        simp only [addSegmentToQueue] at hg
        rcases List.mem_append.mp hg with hg | hg
        · exact hinv g hg
        · rw [List.mem_singleton] at hg
          subst hg
          exact ⟨fun hr => by simp at hr, fun ha => absurd rfl ha⟩
      · exact hinv
    · exact hinv
  · exact hinv

theorem audioInvariant_cleanup {s : PipelineState} (hinv : AudioInvariant s)
    (now : Int) : AudioInvariant (cleanupOldSpokenSegments s now) := by
  intro g hg
  simp only [cleanupOldSpokenSegments] at hg
  exact hinv g (List.mem_filter.mp hg).1

theorem audioInvariant_next {s : PipelineState} (hinv : AudioInvariant s)
    (tts : List Char → Bool) : AudioInvariant (nextSegmentStep s tts) := by
  unfold nextSegmentStep
  cases hn : getNextSegmentToSpeak s with
  | none => exact hinv
  | some seg =>
    dsimp only
    split
    · exact audioInvariant_generateAudio hinv seg.text seg.id tts
    · exact hinv

theorem audioInvariant_step {s s' : PipelineState} (h : Step s s')
    (hinv : AudioInvariant s) : AudioInvariant s' := by
  cases h with
  | ingest script now => exact audioInvariant_ingest hinv script now
  | next tts => exact audioInvariant_next hinv tts
  | mark segmentId now => exact audioInvariant_mark hinv segmentId now
  | cleanup now => exact audioInvariant_cleanup hinv now

/-- Claim C1 (amended): in every reachable state, every `ready` segment
has a non-null audio location and every segment with a non-null audio
location is `ready` or `spoken`; the claimed `iff` fails in the other
direction because `markSegmentAsSpoken` never fills `audioFile`, so a
`pending` segment marked spoken becomes `spoken` with a null audio
location. -/
theorem audio_presence_amended (s : PipelineState) (h : Reachable s) :
    AudioInvariant s := by
  unfold Reachable at h
  induction h with
  | refl =>
    intro g hg
    simp [initState] at hg
  | tail hsteps hstep ih => exact audioInvariant_step hstep ih

/-- Claim C1 witness: the invariant instantiated at the reachable state
holding one freshly ingested pending segment. -/
theorem audio_presence_witness :
    (helloSeg.status = Status.ready → helloSeg.audioFile ≠ none) ∧
    (helloSeg.audioFile ≠ none →
      helloSeg.status = Status.ready ∨ helloSeg.status = Status.spoken) :=
  audio_presence_amended (processFullScript initState "Hello.".toList 1).1
    (Relation.ReflTransGen.single (Step.ingest initState "Hello.".toList 1))
    helloSeg (by decide)

/-- Claim C1 counterexample: ingest `"Hello."` at time 1, then mark the
segment spoken at time 2 — a state reachable by two pipeline operations
whose only segment is `spoken` with `audioFile = none`, refuting the
claimed `audioFile ≠ null ↔ status ∈ {ready, spoken}`. -/
theorem audio_presence_cex :
    Reachable spokenNoAudioState ∧
    spokenNoAudioState.segments =
      [{ id := 1, text := "Hello.".toList, timestamp := 1
         status := Status.spoken, audioFile := none, spokenAt := some 2 }] ∧
    ¬ (∀ seg ∈ spokenNoAudioState.segments,
        (seg.audioFile ≠ none ↔
          (seg.status = Status.ready ∨ seg.status = Status.spoken))) := by
  refine ⟨?_, by decide, by decide⟩
  exact Relation.ReflTransGen.tail
    (Relation.ReflTransGen.single (Step.ingest initState "Hello.".toList 1))
    (Step.mark _ 1 2)

/-! ## Claim C2: idempotency of mark-spoken -/

theorem find?_updateFirst_const {p : Segment → Bool} {b : Segment} :
    ∀ {l : List Segment} {a : Segment}, l.find? p = some a → p b = true →
      (updateFirst p (fun _ => b) l).find? p = some b := by
  intro l
  induction l with
  | nil =>
    intro a h _
    simp [List.find?] at h
  | cons x xs ih =>
    intro a h hb
    rw [updateFirst]
    by_cases hx : p x
    · rw [if_pos hx]
      exact List.find?_cons_of_pos _ hb
    · rw [List.find?_cons_of_neg _ hx] at h
      rw [if_neg hx, List.find?_cons_of_neg _ hx]
      exact ih h hb

theorem updateFirst_const_twice {p : Segment → Bool} {b c : Segment}
    (hb : p b = true) :
    ∀ l : List Segment,
      updateFirst p (fun _ => c) (updateFirst p (fun _ => b) l) =
        updateFirst p (fun _ => c) l := by
  intro l
  induction l with
  | nil => rfl
  | cons x xs ih =>
    rw [updateFirst]
    by_cases hx : p x
    · rw [if_pos hx, updateFirst, if_pos hb, updateFirst, if_pos hx]
    · rw [if_neg hx, updateFirst, if_neg hx, ih, updateFirst, if_neg hx]

theorem mem_fsWrite (files : List AudioPath) (f : AudioPath) :
    f ∈ fsWrite files f := by
  unfold fsWrite
  split
  · assumption
  · exact List.mem_cons_self f files

theorem fsExists_fsRename_self (files : List AudioPath) (src dst : AudioPath) :
    fsExists (fsRename files src dst) dst = true := by
  unfold fsExists fsRename
  exact decide_eq_true (mem_fsWrite _ _)

theorem markSpoken_twice_segments (s : PipelineState) (segmentId t₁ t₂ : Int) :
    (markSegmentAsSpoken (markSegmentAsSpoken s segmentId t₁) segmentId t₂).segments =
      (markSegmentAsSpoken s segmentId t₂).segments := by
  unfold markSegmentAsSpoken
  cases hf : s.segments.find? (fun g => decide (g.id = segmentId)) with
  | none =>
    rw [hf]
  | some seg =>
    have hid : seg.id = segmentId := by
      have hps := List.find?_some hf
      simpa using hps
    dsimp only
    cases haf : seg.audioFile with
    | none =>
      dsimp only
      have hp₁ : (fun g : Segment => decide (g.id = segmentId))
          ({ id := seg.id, text := seg.text, timestamp := seg.timestamp
             status := Status.spoken, audioFile := none
             spokenAt := some t₁ } : Segment) = true := by
        simp [hid]
      rw [find?_updateFirst_const hf hp₁]
      dsimp only
      rw [updateFirst_const_twice hp₁]
    | some f =>
      dsimp only
      by_cases hex : fsExists s.files f
      · rw [if_pos hex]
        have hp₂ : (fun g : Segment => decide (g.id = segmentId))
            ({ id := seg.id, text := seg.text, timestamp := seg.timestamp
               status := Status.spoken, audioFile := some ⟨Dir.spoken, f.base⟩
               spokenAt := some t₁ } : Segment) = true := by
          simp [hid]
        rw [find?_updateFirst_const hf hp₂]
        dsimp only
        rw [if_pos (fsExists_fsRename_self s.files f ⟨Dir.spoken, f.base⟩)]
        dsimp only
        rw [updateFirst_const_twice hp₂]
        rw [if_pos hex]
      · rw [if_neg hex]
        have hp₃ : (fun g : Segment => decide (g.id = segmentId))
            ({ id := seg.id, text := seg.text, timestamp := seg.timestamp
               status := Status.spoken, audioFile := some f
               spokenAt := some t₁ } : Segment) = true := by
          simp [hid]
        rw [find?_updateFirst_const hf hp₃]
        dsimp only
        rw [if_neg hex]
        dsimp only
        rw [updateFirst_const_twice hp₃]
        rw [if_neg hex]

/-- Claim C2 (amended): calling `markSegmentAsSpoken` twice on any id is
accepted without error and produces the same observable store state
(ids, statuses, audio locations, `spokenAt`s) as calling it once at the
time of the second call — the second call is a no-op except that it
overwrites `spokenAt` with its own timestamp, so the two-call state
equals the one-call state exactly when both calls carry the same
timestamp. -/
theorem markSpoken_idempotent_amended (s : PipelineState) (segmentId t₁ t₂ : Int) :
    obsSegments (markSegmentAsSpoken (markSegmentAsSpoken s segmentId t₁) segmentId t₂) =
      obsSegments (markSegmentAsSpoken s segmentId t₂) ∧
    (markSpokenEndpoint (markSegmentAsSpoken s segmentId t₁) segmentId t₂).2 = true := by
  constructor
  · unfold obsSegments
    rw [markSpoken_twice_segments]
  · rfl

/-- Claim C2 counterexample: marking segment 1 spoken at time 2 and
again at time 3 leaves `spokenAt = 3`, not the `spokenAt = 2` of a
single call — the second call is accepted but is not observably a
no-op. -/
theorem markSpoken_idempotent_cex :
    (markSegmentAsSpoken (markSegmentAsSpoken hiState 1 2) 1 3).segments.map
      Segment.spokenAt = [some 3] ∧
    (markSegmentAsSpoken hiState 1 2).segments.map Segment.spokenAt = [some 2] ∧
    obsSegments (markSegmentAsSpoken (markSegmentAsSpoken hiState 1 2) 1 3) ≠
      obsSegments (markSegmentAsSpoken hiState 1 2) :=
  ⟨by decide, by decide, by decide⟩

/-! ## Claim C4: ingest -/

/-- Claim C4 (amended): whenever the transcript suffix past the cursor
is non-empty, non-whitespace and contains terminal sentence
punctuation, `processFullScript` advances the cursor to the full
transcript length and leaves the audio files alone; if the cleaned
suffix is non-empty it appends exactly one new `pending` segment with
null audio and the cleaned text, but if cleaning leaves the suffix
empty the cursor still advances while nothing is appended.  The spec's
scenario holds: ingesting `"Hello world. This is segment one."` from
cursor 0 yields one pending segment with that exact text and cursor
equal to the string's length. -/
theorem ingest_amended (s : PipelineState) (script : List Char) (now : Int)
    (hpos : s.lastPosition < script.length)
    (htrim : trimChars (script.drop s.lastPosition) ≠ [])
    (hpunct : (script.drop s.lastPosition).any isSentencePunct = true) :
    (processFullScript s script now).1.lastPosition = script.length ∧
    (processFullScript s script now).1.files = s.files ∧
    (cleanContentIngest (script.drop s.lastPosition) ≠ [] →
      (processFullScript s script now).1.segments = s.segments ++
        [{ id := now, text := cleanContentIngest (script.drop s.lastPosition)
           timestamp := now, status := Status.pending
           audioFile := none, spokenAt := none }] ∧
      (processFullScript s script now).2 =
        some { id := now, text := cleanContentIngest (script.drop s.lastPosition)
               timestamp := now, status := Status.pending
               audioFile := none, spokenAt := none }) ∧
    (cleanContentIngest (script.drop s.lastPosition) = [] →
      (processFullScript s script now).1.segments = s.segments ∧
      (processFullScript s script now).2 = none) ∧
    processFullScript initState helloScript 7 =
      ({ lastPosition := helloScript.length
         segments := [{ id := 7, text := helloScript, timestamp := 7
                        status := Status.pending, audioFile := none
                        spokenAt := none }]
         files := [] },
       some { id := 7, text := helloScript, timestamp := 7
              status := Status.pending, audioFile := none, spokenAt := none }) := by
  simp only [processFullScript]
  rw [if_pos hpos, if_pos (And.intro htrim hpunct)]
  by_cases hclean : cleanContentIngest (script.drop s.lastPosition) = []
  · rw [if_neg (fun h => h hclean)]
    exact ⟨rfl, rfl, fun h => absurd hclean h, fun _ => ⟨rfl, rfl⟩, by decide⟩
  · rw [if_pos hclean]
    exact ⟨rfl, rfl, fun _ => ⟨rfl, rfl⟩, fun h => absurd h hclean, by decide⟩

/-- Claim C4 witness: the amended theorem applied to the spec's
scenario transcript, from the fresh store, at `Date.now() = 7`. -/
theorem ingest_witness :
    (processFullScript initState helloScript 7).1.lastPosition = helloScript.length ∧
    (processFullScript initState helloScript 7).1.segments =
      initState.segments ++
        [{ id := 7, text := cleanContentIngest (helloScript.drop initState.lastPosition)
           timestamp := 7, status := Status.pending
           audioFile := none, spokenAt := none }] := by
  have h := ingest_amended initState helloScript 7 (by decide) (by decide) (by decide)
  exact ⟨h.1, (h.2.2.1 (by decide)).1⟩

/-- Claim C4 counterexample: the transcript `"[a.]"` from cursor 0 is
non-empty, non-whitespace and contains a `'.'`, yet ingesting it
advances the cursor to 4 while appending no segment at all, because
stripping the bracketed text empties it. -/
theorem ingest_cex :
    bracketScript ≠ [] ∧
    trimChars bracketScript ≠ [] ∧
    bracketScript.any isSentencePunct = true ∧
    (processFullScript initState bracketScript 5).1.lastPosition = 4 ∧
    (processFullScript initState bracketScript 5).1.segments = [] ∧
    (processFullScript initState bracketScript 5).2 = none :=
  ⟨by decide, by decide, by decide, by decide, by decide, by decide⟩

/-! ## Claim C8: retention sweep -/

theorem shouldPurge_iff (cutoff : Int) (seg : Segment) :
    shouldPurge cutoff seg = true ↔
      seg.status = Status.spoken ∧ ∃ t, seg.spokenAt = some t ∧ t < cutoff := by
  unfold shouldPurge
  cases hsa : seg.spokenAt with
  | none => simp
  | some t => simp

/-- Claim C8: the retention sweep removes exactly the `spoken` segments
whose `spokenAt` is older than the 7-day window, leaving the cursor and
every other segment unchanged; in the scenario the 8-day-old spoken
segment is removed together with its audio artifact while the 6-day-old
spoken segment and the pending segment (and their files) are kept. -/
theorem retention_sweep :
    (∀ (s : PipelineState) (now : Int),
      (cleanupOldSpokenSegments s now).lastPosition = s.lastPosition ∧
      ∀ seg : Segment,
        seg ∈ (cleanupOldSpokenSegments s now).segments ↔
          seg ∈ s.segments ∧
            ¬(seg.status = Status.spoken ∧
              ∃ t, seg.spokenAt = some t ∧
                t < now - (MAX_SCRIPT_AGE_DAYS : Int) * msPerDay)) ∧
    cleanupOldSpokenSegments cleanupDemo demoNow =
      { lastPosition := 42, segments := [seg6d, segPend]
        files := [⟨Dir.spoken, 12⟩] } := by
  constructor
  · intro s now
    refine ⟨rfl, ?_⟩
    intro seg
    simp only [cleanupOldSpokenSegments, List.mem_filter, Bool.not_eq_true']
    rw [Bool.eq_false_iff, Ne, shouldPurge_iff]
  · decide

end CryptoFM
